import Mathlib

/-!
Verification development for the dynamic bitmap-font glyph atlas
(`DynamicBitmapFont.ts`) and the MSDF shader bits (`mSDFBit.ts`).

The TypeScript code is shallowly embedded over exact rationals (`ℚ`):
JS numbers become `ℚ`, `Math.ceil` becomes `Int.ceil`, strings become
`List Char` (one `Char` per code point), and the mutable font object
becomes explicit state passing.  Measurement (`CanvasTextMetrics`) is an
external collaborator and is embedded as a deterministic oracle that the
development quantifies over.  Rasterization and single-character
measurement calls are recorded as traces so that claims about "never
rasterized" or "measured at most once" are statable.
-/

namespace PixiDyn

/-- 4-component vector of rationals: the exact-real embedding of
`vec4<f32>` (WGSL) and `vec4` (GLSL). -/
structure Vec4 where
  r : ℚ
  g : ℚ
  b : ℚ
  a : ℚ

/-- GLSL/WGSL `clamp` on rationals. -/
def qclamp (x lo hi : ℚ) : ℚ := min (max x lo) hi

/-- GLSL/WGSL `smoothstep`: Hermite interpolation after clamping, as both
shading-language specifications define it. -/
def qsmoothstep (e0 e1 x : ℚ) : ℚ :=
  let t := qclamp ((x - e0) / (e1 - e0)) 0 1
  t * t * (3 - 2 * t)

/-- GLSL/WGSL `mix(a, b, t) = a * (1 - t) + b * t`. -/
def qmix (a b t : ℚ) : ℚ := a * (1 - t) + b * t

/-- GLSL/WGSL `dot` of two 3-component vectors, given componentwise. -/
def qdot3 (ar ag ab br bg bb : ℚ) : ℚ := ar * br + ag * bg + ab * bb

/-- Transcription of the WGSL `calculateMSDFAlpha` from `mSDFBit.fragment.header`.
`p` is the (transcendental) `pow` primitive, passed in abstractly since a
rational-valued closed form does not exist; both shader variants receive
the same primitive. -/
def calculateMSDFAlphaWgsl (p : ℚ → ℚ → ℚ) (msdfColor shapeColor : Vec4) (distance : ℚ) : ℚ :=
  let median0 := msdfColor.r + msdfColor.g + msdfColor.b -
    min msdfColor.r (min msdfColor.g msdfColor.b) -
    max msdfColor.r (max msdfColor.g msdfColor.b)
  let median := min median0 msdfColor.a
  let screenPxDistance := distance * (median - 1 / 2)
  let pixelRange0 := distance * (2 / 100)
  let pixelRange := max pixelRange0 (1 / 10)
  let alpha0 := qsmoothstep (-pixelRange) pixelRange screenPxDistance
  let alpha := if median < 5 / 100 then 0
    else if median > 95 / 100 then 1
    else qsmoothstep (45 / 100) (55 / 100) alpha0
  let luma := qdot3 shapeColor.r shapeColor.g shapeColor.b (299 / 1000) (587 / 1000) (114 / 1000)
  let gamma := qmix 1 (1 / (18 / 10)) luma
  p (shapeColor.a * alpha) gamma

/-- Transcription of the GLSL `calculateMSDFAlpha` from `mSDFBitGl.fragment.header`. -/
def calculateMSDFAlphaGlsl (p : ℚ → ℚ → ℚ) (msdfColor shapeColor : Vec4) (distance : ℚ) : ℚ :=
  let median0 := msdfColor.r + msdfColor.g + msdfColor.b -
    min msdfColor.r (min msdfColor.g msdfColor.b) -
    max msdfColor.r (max msdfColor.g msdfColor.b)
  let median := min median0 msdfColor.a
  let screenPxDistance := distance * (median - 1 / 2)
  let pixelRange0 := distance * (2 / 100)
  let pixelRange := max pixelRange0 (1 / 10)
  let alpha0 := qsmoothstep (-pixelRange) pixelRange screenPxDistance
  let alpha := if median < 5 / 100 then 0
    else if median > 95 / 100 then 1
    else qsmoothstep (45 / 100) (55 / 100) alpha0
  let luma := qdot3 shapeColor.r shapeColor.g shapeColor.b (299 / 1000) (587 / 1000) (114 / 1000)
  let gamma := qmix 1 (1 / (18 / 10)) luma
  p (shapeColor.a * alpha) gamma

/-- The measurement collaborator (`CanvasTextMetrics`), embedded as a
deterministic oracle: `width s` is `measureTextWidth(s, 0, context)` for a
string `s`, and `height c` is `measureText(c, ...).height` for a single
character. -/
structure Oracle where
  width : List Char → ℚ
  height : Char → ℚ

/-- The texture region rectangle (`Rectangle`) recorded on a glyph. -/
structure Frame where
  x : ℚ
  y : ℚ
  w : ℚ
  h : ℚ
deriving DecidableEq

/-- The per-glyph record stored in `this.chars[char]`. -/
structure GlyphRecord where
  id : ℕ
  xOffset : ℚ
  yOffset : ℚ
  xAdvance : ℚ
  kerning : Char → Option ℚ
  texture : Option (ℤ × Frame)

/-- One rasterization event: `_drawGlyph` was called for `ch` on page
`page`, with the padded box placed at packing position `(x, y)` and padded
dimensions `(pw, ph)`. -/
structure DrawEvent where
  ch : Char
  page : ℤ
  x : ℚ
  y : ℚ
  pw : ℚ
  ph : ℚ
deriving DecidableEq

/-- The constructor-derived configuration of a `DynamicBitmapFont`
instance: everything `ensureCharacters` reads from `this` and the style. -/
structure FontCfg where
  fontScale : ℚ
  padding : ℚ
  italic : Bool
  strokeWidth : ℚ
  shadowDistance : ℚ
  skipKerning : Bool
  maxTextureWidth : ℚ
  maxTextureHeight : ℚ
  srcW : ℚ
  srcH : ℚ

/-- The mutable state of a `DynamicBitmapFont` instance. `draws`,
`kernWrites` and `kernCalls` are instrumentation traces: rasterization
calls, kerning-table writes `(first, second, amount)`, and single-character
width-measurement calls made by `_applyKerning`. -/
structure FontState where
  currentChars : List Char
  currentX : ℚ
  currentY : ℚ
  currentPageIndex : ℤ
  pagesCount : ℕ
  chars : Char → Option GlyphRecord
  measureCache : Char → Option ℚ
  draws : List DrawEvent
  kernWrites : List (Char × Char × ℚ)
  kernCalls : List (List Char)

/-- The loop-local state of the packing loop in `ensureCharacters`
(`currentX`, `currentY`, `maxCharHeight`, the active page, the page list
length, the glyph table, and the rasterization trace). -/
structure LoopState where
  x : ℚ
  y : ℚ
  mch : ℚ
  page : ℤ
  pagesCount : ℕ
  chars : Char → Option GlyphRecord
  draws : List DrawEvent

/-- The geometric part of the loop state threaded through the shelf-advance
logic (lines 189-209 of the source). -/
structure Pose where
  x : ℚ
  y : ℚ
  mch : ℚ
  page : ℤ
  pagesCount : ℕ

/-- The whitespace test of line 183: `'\n'`, `'\r'`, `'\t'`, `' '`. -/
def isWhitespaceChar (c : Char) : Bool :=
  decide (c = '\n') || decide (c = '\r') || decide (c = '\t') || decide (c = ' ')

/-- `Math.ceil((style.fontStyle === 'italic' ? 2 : 1) * width)` with
`width = charWidth * fontScale` (lines 172-174). -/
def textureGlyphWidth (cfg : FontCfg) (m : Oracle) (c : Char) : ℤ :=
  ⌈(if cfg.italic then (2 : ℚ) else 1) * (m.width [c] * cfg.fontScale)⌉

/-- `padding = this._padding * fontScale` (line 149). -/
def scaledPadding (cfg : FontCfg) : ℚ := cfg.padding * cfg.fontScale

/-- `paddedWidth = textureGlyphWidth + padding * 2` (line 178). -/
def paddedWidth (cfg : FontCfg) (m : Oracle) (c : Char) : ℚ :=
  (textureGlyphWidth cfg m c : ℚ) + 2 * scaledPadding cfg

/-- `paddedHeight = height + padding * 2` with
`height = metrics.height * fontScale` (lines 176-179). -/
def paddedHeight (cfg : FontCfg) (m : Oracle) (c : Char) : ℚ :=
  m.height c * cfg.fontScale + 2 * scaledPadding cfg

/-- `xAdvance = charWidth - dropShadow.distance - stroke.width`
(lines 212-214): the unscaled measured width net of shadow and stroke. -/
def xAdvanceOf (cfg : FontCfg) (m : Oracle) (c : Char) : ℚ :=
  m.width [c] - cfg.shadowDistance - cfg.strokeWidth

/-- The texture frame of lines 236-244: packing coordinates mapped through
`px = textureSource.width * fontScale` and back onto the source size. -/
def mkFrame (srcW srcH fs x y w h : ℚ) : Frame :=
  { x := x / (srcW * fs) * srcW
    y := y / (srcH * fs) * srcH
    w := w / (srcW * fs) * srcW
    h := h / (srcH * fs) * srcH }

/-- The shelf-advance and page-overflow logic of lines 189-209: `mch1` is
the already-updated `maxCharHeight`, `pw`/`ph` the padded box of the
current character. -/
def advancePose (cfg : FontCfg) (pw ph mch1 : ℚ) (p : Pose) : Pose :=
  if p.x + pw > cfg.maxTextureWidth then
    if p.y + mch1 + ph > cfg.maxTextureHeight then
      { x := 0, y := 0, mch := ph, page := p.page + 1
        pagesCount := max p.pagesCount (p.page + 2).toNat }
    else
      { x := 0, y := p.y + mch1, mch := ph, page := p.page, pagesCount := p.pagesCount }
  else
    { x := p.x, y := p.y, mch := mch1, page := p.page, pagesCount := p.pagesCount }

/-- One iteration of the per-character loop of `ensureCharacters`
(lines 157-255). -/
def charStep (cfg : FontCfg) (m : Oracle) (ls : LoopState) (c : Char) : LoopState :=
  let pw := paddedWidth cfg m c
  let ph := paddedHeight cfg m c
  let rec0 : GlyphRecord :=
    { id := c.toNat, xOffset := -cfg.padding, yOffset := -cfg.padding
      xAdvance := xAdvanceOf cfg m c, kerning := fun _ => none, texture := none }
  if isWhitespaceChar c then
    let pose := advancePose cfg pw ph ls.mch
      { x := ls.x, y := ls.y, mch := ls.mch, page := ls.page, pagesCount := ls.pagesCount }
    { x := pose.x, y := pose.y, mch := pose.mch, page := pose.page
      pagesCount := pose.pagesCount
      chars := fun d => if d = c then some rec0 else ls.chars d
      draws := ls.draws }
  else
    let mch1 : ℚ := ((⌈max ph ls.mch⌉ : ℤ) : ℚ)
    let pose := advancePose cfg pw ph mch1
      { x := ls.x, y := ls.y, mch := ls.mch, page := ls.page, pagesCount := ls.pagesCount }
    { x := pose.x + ((⌈pw⌉ : ℤ) : ℚ), y := pose.y, mch := pose.mch, page := pose.page
      pagesCount := pose.pagesCount
      chars := fun d => if d = c then
          some { rec0 with
            texture := some (pose.page, mkFrame cfg.srcW cfg.srcH cfg.fontScale pose.x pose.y pw ph) }
        else ls.chars d
      draws := ls.draws ++ [{ ch := c, page := pose.page, x := pose.x, y := pose.y, pw := pw, ph := ph }] }

/-- Modelled from the spec: `resolveCharacters` (in
`./utils/resolveCharacters`, not under `src/`) decomposes the input text
into a sequence of individual code-point characters.  Since strings are
embedded as `List Char` (one entry per code point), the decomposition is
the identity. -/
def resolveCharacters (s : List Char) : List Char := s

/-- The in-batch de-duplication
`filter((char, index, self) => self.indexOf(char) === index)`:
keep the first occurrence of each element. -/
def dedupFirstAux : List Char → List Char → List Char
  | _, [] => []
  | seen, c :: rest =>
    if c ∈ seen then dedupFirstAux seen rest else c :: dedupFirstAux (c :: seen) rest

/-- De-duplicate a list keeping first occurrences. -/
def dedupFirst (l : List Char) : List Char := dedupFirstAux [] l

/-- The filtered new-character batch of lines 120-122: resolve, drop
characters already in `_currentChars`, de-duplicate within the batch. -/
def newCharList (st : FontState) (s : List Char) : List Char :=
  dedupFirst ((resolveCharacters s).filter (fun c => decide (c ∉ st.currentChars)))

/-- The kerning cache state threaded through `_applyKerning`: the glyph
table, the per-font `_measureCache`, and the two instrumentation traces. -/
structure KernState where
  chars : Char → Option GlyphRecord
  cache : Char → Option ℚ
  writes : List (Char × Char × ℚ)
  calls : List (List Char)

/-- The memoized single-character width lookup of lines 293-299:
`let c1 = measureCache[first]; if (!c1) c1 = measureCache[first] = measure(first)`.
A missing entry and a cached `0` are both falsy and trigger a (re)measure;
each actual measurement call is recorded in the trace. -/
def lookupWidth (m : Oracle) (cache : Char → Option ℚ) (calls : List (List Char)) (c : Char) :
    ℚ × (Char → Option ℚ) × List (List Char) :=
  match cache c with
  | some v =>
    if v = 0 then
      (m.width [c], fun d => if d = c then some (m.width [c]) else cache d, calls ++ [[c]])
    else (v, cache, calls)
  | none =>
    (m.width [c], fun d => if d = c then some (m.width [c]) else cache d, calls ++ [[c]])

/-- `this.chars[a].kerning[b] = v` (no-op when `chars[a]` is absent, which
never happens on reachable states: every kerned character was recorded by
the packing loop first). -/
def kernSet (chars : Char → Option GlyphRecord) (a b : Char) (v : ℚ) :
    Char → Option GlyphRecord :=
  fun d => if d = a then
      (chars a).map (fun r => { r with kerning := fun e => if e = b then some v else r.kerning e })
    else chars d

/-- The body of the inner loop of `_applyKerning` (lines 288-317) for a
fixed `first` and the current `second`.  Note the source measures the
concatenation `first + second` a second time (line 310) for the
"new char being second" direction as well. -/
def kernPairStep (m : Oracle) (first : Char) (ks : KernState) (second : Char) : KernState :=
  let r1 := lookupWidth m ks.cache ks.calls first
  let c1 := r1.1
  let r2 := lookupWidth m r1.2.1 r1.2.2 second
  let c2 := r2.1
  let amount := m.width [first, second] - (c1 + c2)
  let chars1 := if amount ≠ 0 then kernSet ks.chars first second amount else ks.chars
  let writes1 := if amount ≠ 0 then ks.writes ++ [(first, second, amount)] else ks.writes
  let amount2 := m.width [first, second] - (c1 + c2)
  let chars2 := if amount2 ≠ 0 then kernSet chars1 second first amount2 else chars1
  let writes2 := if amount2 ≠ 0 then writes1 ++ [(second, first, amount2)] else writes1
  { chars := chars2, cache := r2.2.1, writes := writes2, calls := r2.2.2 }

/-- `_applyKerning(newChars, context)` (lines 279-319): every new
character against the whole membership set, both directions. -/
def applyKerning (m : Oracle) (newChars currentChars : List Char) (ks : KernState) : KernState :=
  newChars.foldl (fun ks first => currentChars.foldl (kernPairStep m first) ks) ks

/-- A sequence of `_applyKerning` invocations (one per `ensureCharacters`
call), each with its batch of new characters and the membership set at
that time. -/
def runKernBatches (m : Oracle) (bs : List (List Char × List Char)) (ks : KernState) : KernState :=
  bs.foldl (fun ks b => applyKerning m b.1 b.2 ks) ks

/-- The non-trivial branch of `ensureCharacters` (lines 127-263), taken
when the filtered batch is non-empty. -/
def ensureBody (cfg : FontCfg) (m : Oracle) (st : FontState) (s : List Char) : FontState :=
  let charList := newCharList st s
  let currentChars1 := st.currentChars ++ charList
  let page0 : ℤ := if st.currentPageIndex = -1 then st.currentPageIndex + 1 else st.currentPageIndex
  let pages0 : ℕ :=
    if st.currentPageIndex = -1 then max st.pagesCount (st.currentPageIndex + 2).toNat
    else st.pagesCount
  let ls1 := charList.foldl (charStep cfg m)
    { x := st.currentX, y := st.currentY, mch := 0, page := page0, pagesCount := pages0
      chars := st.chars, draws := st.draws }
  let st1 : FontState :=
    { currentChars := currentChars1, currentX := ls1.x, currentY := ls1.y
      currentPageIndex := ls1.page, pagesCount := ls1.pagesCount, chars := ls1.chars
      measureCache := st.measureCache, draws := ls1.draws
      kernWrites := st.kernWrites, kernCalls := st.kernCalls }
  if cfg.skipKerning then
    let ks := applyKerning m charList currentChars1
      { chars := st1.chars, cache := st1.measureCache
        writes := st1.kernWrites, calls := st1.kernCalls }
    { st1 with
        chars := ks.chars
        measureCache := ks.cache
        kernWrites := ks.writes
        kernCalls := ks.calls }
  else st1

/-- `ensureCharacters(chars)` (lines 118-264).  Note line 263 of the
source: `this._skipKerning && this._applyKerning(charList, context)` —
the kerning pass runs exactly when `_skipKerning` is `true`. -/
def ensureCharacters (cfg : FontCfg) (m : Oracle) (st : FontState) (s : List Char) : FontState :=
  if (newCharList st s).isEmpty then st else ensureBody cfg m st s

/-- A freshly constructed font: no characters, no pages
(`_currentPageIndex = -1`), cursor at the origin, empty caches and traces. -/
def stInit : FontState :=
  { currentChars := [], currentX := 0, currentY := 0, currentPageIndex := -1
    pagesCount := 0, chars := fun _ => none, measureCache := fun _ => none
    draws := [], kernWrites := [], kernCalls := [] }

/-- The loop state at the start of the first `ensureCharacters` call on a
fresh font, right after the first `_nextPage()`. -/
def lsInit0 : LoopState :=
  { x := 0, y := 0, mch := 0, page := 0, pagesCount := 1
    chars := fun _ => none, draws := [] }

/-- The effective single-character width `_applyKerning` uses under cache
state `σ`: the cached value when present and non-zero, a fresh measurement
otherwise. -/
def effW (m : Oracle) (σ : Char → Option ℚ) (c : Char) : ℚ :=
  match σ c with
  | some v => if v = 0 then m.width [c] else v
  | none => m.width [c]

/-- The canonical kerning amount for an ordered pair under cache state `σ`:
`measure(a + b) - (width a + width b)`. -/
def kcanon (m : Oracle) (σ : Char → Option ℚ) (a b : Char) : ℚ :=
  m.width [a, b] - (effW m σ a + effW m σ b)

/-- `badPair w w2` holds when the later write `w2` targets the same kerning
entry as the earlier write `w`, `w` stored a non-zero amount, and `w2`
stores a different amount. -/
def badPair (w w2 : Char × Char × ℚ) : Bool :=
  decide (w2.1 = w.1) && decide (w2.2.1 = w.2.1) && decide (¬ w.2.2 = 0) &&
    decide (¬ w2.2.2 = w.2.2)

/-- A write trace contains an overwrite of an existing non-zero kerning
entry with a different value. -/
def hasBadWrite : List (Char × Char × ℚ) → Bool
  | [] => false
  | w :: ws => ws.any (badPair w) || hasBadWrite ws

/-- The constructor options of `DynamicBitmapFont` that feed the
configuration: the style's requested font size, stroke width and shadow
distance, plus the dynamic options. -/
structure FontOptions where
  fontSize : ℚ
  stroke : Option ℚ
  shadowDistance : ℚ
  overrideSize : Bool
  skipKerning : Bool
  padding : ℚ
  italic : Bool
  textureSize : ℚ
  resolution : ℚ

/-- Modelled from the spec: the fixed measurement baseline font size of
`AbstractBitmapFont` (not under `src/`); the spec's scenario fixes it
at 100. -/
def baseMeasurementFontSize : ℚ := 100

/-- Modelled from the spec: the initial `baseRenderedFontSize` of
`AbstractBitmapFont` (not under `src/`), equal to the measurement size. -/
def baseRenderedFontSizeInit : ℚ := 100

/-- The stroke width held by the font after construction (lines 94-107):
under `overrideSize` the configured stroke is rescaled by
`baseRenderedFontSize / requestedFontSize`; otherwise it is kept as
configured. -/
def effectiveStrokeWidth (o : FontOptions) : ℚ :=
  match o.stroke with
  | some w => if o.overrideSize then w * (baseRenderedFontSizeInit / o.fontSize) else w
  | none => 0

/-- `baseRenderedFontSize` after construction: the requested size unless
`overrideSize` keeps the initial baseline. -/
def renderedFontSize (o : FontOptions) : ℚ :=
  if o.overrideSize then baseRenderedFontSizeInit else o.fontSize

/-- The constructor (lines 65-116) as a map from options to the
configuration read by `ensureCharacters`.  The page surface and texture
source dimensions follow the spec's collaborator contracts: a
`textureSize × textureSize` surface at the device resolution, wrapped at
resolution `deviceResolution * fontScale`. -/
def mkFontCfg (o : FontOptions) : FontCfg :=
  { fontScale := renderedFontSize o / baseMeasurementFontSize
    padding := o.padding
    italic := o.italic
    strokeWidth := effectiveStrokeWidth o
    shadowDistance := o.shadowDistance
    skipKerning := o.skipKerning
    maxTextureWidth := o.textureSize * o.resolution / o.resolution
    maxTextureHeight := o.textureSize * o.resolution / o.resolution
    srcW := o.textureSize * o.resolution / (o.resolution * (renderedFontSize o / baseMeasurementFontSize))
    srcH := o.textureSize * o.resolution / (o.resolution * (renderedFontSize o / baseMeasurementFontSize)) }

/-- The kerning-pass invariant for claim C4: the cache's effective widths
agree with those of the reference cache `σ0`, and every recorded write
carries the canonical amount for its ordered pair. -/
def KernCanon (m : Oracle) (σ0 : Char → Option ℚ) (ks : KernState) : Prop :=
  (∀ d, effW m ks.cache d = effW m σ0 d) ∧
  ∀ w ∈ ks.writes, w.2.2 = kcanon m σ0 w.1 w.2.1

/-- Uniform-glyph hypothesis for the overflow scenario: a visible
character whose padded box is exactly `pw x ph`. -/
def unifChar (cfg : FontCfg) (m : Oracle) (pw ph : ℕ) (c : Char) : Prop :=
  isWhitespaceChar c = false ∧ paddedWidth cfg m c = (pw : ℚ) ∧ paddedHeight cfg m c = (ph : ℚ)

/-- The shelf-packing invariant for the overflow scenario: after placing
`q * N + r` uniform glyphs (with `1 ≤ r ≤ N`) the cursor sits at
`x = r * pw` on shelf `q` (at `y = q * ph`), the running shelf height is
`ph`, and everything is still on the first page. -/
def shelfInv (pw ph : ℕ) (q r : ℕ) (ls : LoopState) : Prop :=
  ls.x = (r : ℚ) * (pw : ℚ) ∧ ls.y = (q : ℚ) * (ph : ℚ) ∧ ls.mch = (ph : ℚ) ∧
  ls.page = 0 ∧ ls.pagesCount = 1

/-- The shelf-advance pose computed inside `charStep` for character `c`
(the already-updated `maxCharHeight` is passed in, matching lines
183-209 of the source). -/
def poseOf (cfg : FontCfg) (m : Oracle) (ls : LoopState) (c : Char) : Pose :=
  advancePose cfg (paddedWidth cfg m c) (paddedHeight cfg m c)
    ((⌈max (paddedHeight cfg m c) ls.mch⌉ : ℤ) : ℚ)
    { x := ls.x, y := ls.y, mch := ls.mch, page := ls.page, pagesCount := ls.pagesCount }

/-- The page-geometry hypotheses of the overflow scenario: exactly `N`
glyphs of padded width `pw` fit on a shelf, and exactly `M` shelves of
height `ph` fit vertically. -/
structure OverflowScenario (cfg : FontCfg) (pw ph N M : ℕ) : Prop where
  hpw : 0 < pw
  hph : 0 < ph
  hN : 0 < N
  hM : 0 < M
  hWlo : (N : ℚ) * (pw : ℚ) ≤ cfg.maxTextureWidth
  hWhi : cfg.maxTextureWidth < (N : ℚ) * (pw : ℚ) + (pw : ℚ)
  hHlo : (M : ℚ) * (ph : ℚ) ≤ cfg.maxTextureHeight
  hHhi : cfg.maxTextureHeight < (M : ℚ) * (ph : ℚ) + (ph : ℚ)

/-! ### Concrete fixtures used by counterexamples and witnesses -/

/-- A measurement oracle with direction-asymmetric pair widths
(`width "ab" = 10`, `width "ba" = 20`), as canvas text measurement may
produce for genuinely kerned pairs. -/
def oK : Oracle :=
  { width := fun s =>
      if s = ['a'] then 3 else if s = ['b'] then 4
      else if s = ['a', 'b'] then 10 else if s = ['b', 'a'] then 20
      else if s = ['a', 'a'] then 6 else if s = ['b', 'b'] then 8 else 1
    height := fun _ => 2 }

/-- A font configuration with `skipKerning = true`. -/
def cfgKernOn : FontCfg :=
  { fontScale := 1, padding := 0, italic := false, strokeWidth := 0, shadowDistance := 0
    skipKerning := true, maxTextureWidth := 100, maxTextureHeight := 100, srcW := 100, srcH := 100 }

/-- The same configuration with `skipKerning = false` (kerning enabled). -/
def cfgKernOff : FontCfg := { cfgKernOn with skipKerning := false }

/-- An oracle with a zero-width character `x` (as for zero-advance code
points such as zero-width spaces or combining marks). -/
def oZ : Oracle := { width := fun s => if s = ['x'] then 0 else 2, height := fun _ => 1 }

/-- An oracle making the space character wide (8) and tall (7) next to a
small visible glyph `a`. -/
def o3 : Oracle :=
  { width := fun s => if s = ['a'] then 4 else if s = [' '] then 8 else 1
    height := fun c => if c = 'a' then 3 else if c = ' ' then 7 else 1 }

/-- A narrow page (usable width 10) for the whitespace shelf-wrap
counterexample. -/
def cfg3 : FontCfg :=
  { fontScale := 1, padding := 0, italic := false, strokeWidth := 0, shadowDistance := 0
    skipKerning := false, maxTextureWidth := 10, maxTextureHeight := 100, srcW := 100, srcH := 100 }

/-- Oracle for the containment counterexample: `a` is 9 wide / 9 tall,
`b` is 2 wide / 1 tall, `c` is 2 wide / 5 tall. -/
def o7 : Oracle :=
  { width := fun s => if s = ['a'] then 9 else 2
    height := fun c => if c = 'a' then 9 else if c = 'b' then 1 else 5 }

/-- A 10 x 10 usable page for the containment counterexample. -/
def cfg7 : FontCfg :=
  { fontScale := 1, padding := 0, italic := false, strokeWidth := 0, shadowDistance := 0
    skipKerning := false, maxTextureWidth := 10, maxTextureHeight := 10, srcW := 100, srcH := 100 }

/-- An oracle measuring every character 70 wide and 50 tall. -/
def o8 : Oracle := { width := fun _ => 70, height := fun _ => 50 }

/-- Options with `overrideSize` set, requested size 20, configured stroke
width 10. -/
def optsA : FontOptions :=
  { fontSize := 20, stroke := some 10, shadowDistance := 0, overrideSize := true
    skipKerning := false, padding := 4, italic := false, textureSize := 512, resolution := 1 }

/-- The same options, requested size 50. -/
def optsB : FontOptions := { optsA with fontSize := 50 }

/-- The same options without `overrideSize`. -/
def optsC : FontOptions := { optsA with overrideSize := false }

/-- A uniform oracle: every glyph 2 wide, 3 tall. -/
def o6 : Oracle := { width := fun _ => 2, height := fun _ => 3 }

/-- A page fitting exactly 2 glyphs of padded size 2 x 3 on one shelf and
exactly 1 shelf vertically. -/
def cfg6 : FontCfg :=
  { fontScale := 1, padding := 0, italic := false, strokeWidth := 0, shadowDistance := 0
    skipKerning := false, maxTextureWidth := 4, maxTextureHeight := 3, srcW := 100, srcH := 100 }

/-- An oracle with constant string width: trivially direction-symmetric. -/
def oConst : Oracle := { width := fun _ => 5, height := fun _ => 1 }

/-- A kerning state whose cache holds a non-zero width for `a`. -/
def ksW : KernState :=
  { chars := fun _ => none, cache := fun d => if d = 'a' then some 3 else none
    writes := [], calls := [] }

/-- An empty kerning state over an empty cache. -/
def ksEmpty : KernState :=
  { chars := fun _ => none, cache := fun _ => none, writes := [], calls := [] }

/-! ### General helper lemmas -/

theorem foldl_preserve {α β : Type _} {P : β → Prop} {f : β → α → β}
    (hf : ∀ b a, P b → P (f b a)) : ∀ (l : List α) (b : β), P b → P (l.foldl f b) := by
  intro l
  induction l with
  | nil => exact fun b hb => hb
  | cons a t ih => exact fun b hb => ih _ (hf _ _ hb)

theorem mem_dedupFirstAux : ∀ (l seen : List Char) (a : Char),
    a ∈ dedupFirstAux seen l ↔ a ∈ l ∧ a ∉ seen := by
  intro l
  induction l with
  | nil => simp [dedupFirstAux]
  | cons c rest ih =>
    intro seen a
    by_cases hac : a = c
    · subst hac
      by_cases hc : a ∈ seen
      · rw [dedupFirstAux, if_pos hc, ih]
        simp [hc]
      · rw [dedupFirstAux, if_neg hc]
        simp [hc]
    · by_cases hc : c ∈ seen
      · rw [dedupFirstAux, if_pos hc, ih]
        simp [hac]
      · rw [dedupFirstAux, if_neg hc]
        simp [hac, ih]

theorem dedupFirstAux_eq_self : ∀ (l seen : List Char), l.Nodup →
    (∀ a ∈ l, a ∉ seen) → dedupFirstAux seen l = l := by
  intro l
  induction l with
  | nil => intro seen _ _; rfl
  | cons c rest ih =>
    intro seen hnd hdisj
    rw [List.nodup_cons] at hnd
    rw [dedupFirstAux, if_neg (hdisj c (List.mem_cons_self c rest))]
    congr 1
    refine ih _ hnd.2 ?_
    intro a ha
    rw [List.mem_cons]
    push_neg
    exact ⟨fun h => hnd.1 (h ▸ ha), hdisj a (List.mem_cons_of_mem c ha)⟩

theorem dedupFirst_eq_self {l : List Char} (h : l.Nodup) : dedupFirst l = l :=
  dedupFirstAux_eq_self l [] h (fun a _ => List.not_mem_nil a)

theorem mem_newCharList {st : FontState} {s : List Char} {c : Char} :
    c ∈ newCharList st s ↔ c ∈ s ∧ c ∉ st.currentChars := by
  rw [newCharList, dedupFirst, mem_dedupFirstAux]
  simp [List.mem_filter, resolveCharacters]

theorem ensure_of_empty (cfg : FontCfg) (m : Oracle) (st : FontState) (s : List Char)
    (h : newCharList st s = []) : ensureCharacters cfg m st s = st := by
  rw [ensureCharacters, h]
  rfl

theorem ensureBody_currentChars (cfg : FontCfg) (m : Oracle) (st : FontState) (s : List Char) :
    (ensureBody cfg m st s).currentChars = st.currentChars ++ newCharList st s := by
  rw [ensureBody]
  cases h : cfg.skipKerning <;> simp [h]

/-! ### Claim theorems -/

/-- C10: the WGSL and GLSL variants of `calculateMSDFAlpha` compute the
same mathematical function on every input, over the exact-real embedding
with a shared `pow` primitive. -/
theorem C10_msdf_wgsl_glsl_equiv :
    ∀ (p : ℚ → ℚ → ℚ) (msdfColor shapeColor : Vec4) (distance : ℚ),
      calculateMSDFAlphaWgsl p msdfColor shapeColor distance =
        calculateMSDFAlphaGlsl p msdfColor shapeColor distance :=
  fun _ _ _ _ => rfl

theorem div_mul_cancel_q (a w f : ℚ) (hw : w ≠ 0) : a / (w * f) * w = a / f := by
  rcases eq_or_ne f 0 with rfl | hf
  · simp
  · field_simp
    ring

theorem mkFrame_closed (srcW srcH fs x y w h : ℚ) (hw : srcW ≠ 0) (hh : srcH ≠ 0) :
    mkFrame srcW srcH fs x y w h = Frame.mk (x / fs) (y / fs) (w / fs) (h / fs) := by
  rw [mkFrame, div_mul_cancel_q x srcW fs hw, div_mul_cancel_q w srcW fs hw,
    div_mul_cancel_q y srcH fs hh, div_mul_cancel_q h srcH fs hh]

/-- C9: the recorded texture frame equals exactly
`(currentX / fontScale, currentY / fontScale, paddedWidth / fontScale,
paddedHeight / fontScale)`; the texture source dimensions cancel, so the
frame does not depend on them. -/
theorem C9_frame_cancels (srcW srcH fs x y w h : ℚ) (hw : srcW ≠ 0) (hh : srcH ≠ 0) :
    mkFrame srcW srcH fs x y w h = Frame.mk (x / fs) (y / fs) (w / fs) (h / fs) ∧
    (∀ srcW2 srcH2 : ℚ, srcW2 ≠ 0 → srcH2 ≠ 0 →
      mkFrame srcW2 srcH2 fs x y w h = mkFrame srcW srcH fs x y w h) := by
  refine ⟨mkFrame_closed srcW srcH fs x y w h hw hh, ?_⟩
  intro srcW2 srcH2 hw2 hh2
  rw [mkFrame_closed srcW2 srcH2 fs x y w h hw2 hh2, mkFrame_closed srcW srcH fs x y w h hw hh]

unseal Rat.add Rat.sub Rat.mul Rat.inv in
theorem C9_frame_cancels_witness :
    (512 : ℚ) ≠ 0 ∧ (256 : ℚ) ≠ 0 ∧
    mkFrame 512 256 2 10 20 30 40 = Frame.mk (10 / 2) (20 / 2) (30 / 2) (40 / 2) :=
  ⟨by decide, by decide, (C9_frame_cancels 512 256 2 10 20 30 40 (by decide) (by decide)).1⟩

unseal Rat.add Rat.sub Rat.mul Rat.inv in
/-- C1: refuted as stated — line 263 of the source reads
`this._skipKerning && this._applyKerning(charList, context)`, so the
kerning computation runs exactly when `skipKerning` is `true`: with
kerning enabled (`skipKerning = false`) no kerning entry is ever written,
and with `skipKerning = true` entries are written.  This theorem evaluates
the embedded code at the failing input. -/
theorem C1_kerning_gate_inverted :
    cfgKernOff.skipKerning = false ∧
    (ensureCharacters cfgKernOff oK stInit ['a', 'b']).kernWrites = [] ∧
    cfgKernOn.skipKerning = true ∧
    (ensureCharacters cfgKernOn oK stInit ['a', 'b']).kernWrites ≠ [] := by
  decide

/-- C2: `ensureCharacters` is idempotent — when the filtered new-character
list is empty the call returns the state unchanged (no glyph records, no
cursor movement, no page allocation, no rasterization), and a repeated
call with the same string is a no-op. -/
theorem C2_ensure_idempotent :
    (∀ (cfg : FontCfg) (m : Oracle) (st : FontState) (s : List Char),
      newCharList st s = [] → ensureCharacters cfg m st s = st) ∧
    (∀ (cfg : FontCfg) (m : Oracle) (st : FontState) (s : List Char),
      ensureCharacters cfg m (ensureCharacters cfg m st s) s = ensureCharacters cfg m st s) := by
  refine ⟨ensure_of_empty, ?_⟩
  intro cfg m st s
  by_cases h : newCharList st s = []
  · rw [ensure_of_empty cfg m st s h, ensure_of_empty cfg m st s h]
  · have hbody : ensureCharacters cfg m st s = ensureBody cfg m st s := by
      rw [ensureCharacters, if_neg]
      simp [List.isEmpty_iff, h]
    apply ensure_of_empty
    rw [List.eq_nil_iff_forall_not_mem]
    intro c hc
    rw [mem_newCharList] at hc
    obtain ⟨hcs, hnotin⟩ := hc
    apply hnotin
    rw [hbody, ensureBody_currentChars, List.mem_append]
    by_cases hcc : c ∈ st.currentChars
    · exact Or.inl hcc
    · exact Or.inr (mem_newCharList.mpr ⟨hcs, hcc⟩)

theorem C2_ensure_idempotent_witness :
    newCharList stInit [] = [] ∧ ensureCharacters cfgKernOff oK stInit [] = stInit :=
  ⟨rfl, C2_ensure_idempotent.1 cfgKernOff oK stInit [] rfl⟩

unseal Rat.add Rat.sub Rat.mul Rat.inv in
/-- C3: refuted as stated — a whitespace character that triggers a shelf
wrap (line 189) resets `maxCharHeight` to its own `paddedHeight`
(line 194), which can exceed the previous value: here processing `' '`
raises `maxCharHeight` from 3 to 7. -/
theorem C3_whitespace_cex :
    isWhitespaceChar ' ' = true ∧
    (charStep cfg3 o3 (charStep cfg3 o3 lsInit0 'a') ' ').mch >
      (charStep cfg3 o3 lsInit0 'a').mch := by
  decide

/-- C3 amended: a whitespace character never carries a texture and is
never rasterized, and it never increases `maxCharHeight` through the
max-update of line 186 — but when it triggers a shelf wrap,
`maxCharHeight` is reset to the whitespace character's own
`paddedHeight`. -/
theorem C3_whitespace_amended (cfg : FontCfg) (m : Oracle) (ls : LoopState) (c : Char)
    (hws : isWhitespaceChar c = true) :
    (charStep cfg m ls c).draws = ls.draws ∧
    ((charStep cfg m ls c).chars c).map GlyphRecord.texture = some none ∧
    ((charStep cfg m ls c).mch = ls.mch ∨ (charStep cfg m ls c).mch = paddedHeight cfg m c) := by
  rw [charStep]
  simp only [hws, if_true]
  refine ⟨by simp, by simp, ?_⟩
  rw [advancePose]
  by_cases h1 : ls.x + paddedWidth cfg m c > cfg.maxTextureWidth
  · by_cases h2 : ls.y + ls.mch + paddedHeight cfg m c > cfg.maxTextureHeight
    · right
      simp [h1, h2]
    · right
      simp [h1, h2]
  · left
    simp [h1]

theorem C3_whitespace_amended_witness :
    isWhitespaceChar ' ' = true ∧
    ((charStep cfg3 o3 lsInit0 ' ').draws = lsInit0.draws ∧
      ((charStep cfg3 o3 lsInit0 ' ').chars ' ').map GlyphRecord.texture = some none ∧
      ((charStep cfg3 o3 lsInit0 ' ').mch = lsInit0.mch ∨
        (charStep cfg3 o3 lsInit0 ' ').mch = paddedHeight cfg3 o3 ' ')) :=
  ⟨rfl, C3_whitespace_amended cfg3 o3 lsInit0 ' ' rfl⟩

theorem advancePose_x_bound (cfg : FontCfg) (pw ph mch1 : ℚ) (p : Pose) :
    (advancePose cfg pw ph mch1 p).x = 0 ∨
      (advancePose cfg pw ph mch1 p).x + pw ≤ cfg.maxTextureWidth := by
  rw [advancePose]
  by_cases h1 : p.x + pw > cfg.maxTextureWidth
  · by_cases h2 : p.y + mch1 + ph > cfg.maxTextureHeight
    · left
      simp [h1, h2]
    · left
      simp [h1, h2]
  · right
    simp only [if_neg h1]
    exact not_lt.mp h1

theorem charStep_draw_bound (cfg : FontCfg) (m : Oracle) (ls : LoopState) (c : Char) :
    ∀ ev ∈ (charStep cfg m ls c).draws,
      ev ∈ ls.draws ∨ (ev.pw ≤ cfg.maxTextureWidth → ev.x + ev.pw ≤ cfg.maxTextureWidth) := by
  intro ev hev
  rw [charStep] at hev
  by_cases hws : isWhitespaceChar c
  · simp only [hws, if_true] at hev
    exact Or.inl hev
  · simp only [hws, Bool.false_eq_true, if_false] at hev
    rw [List.mem_append, List.mem_singleton] at hev
    rcases hev with hev | rfl
    · exact Or.inl hev
    · right
      intro hpw
      simp only at hpw ⊢
      rcases advancePose_x_bound cfg (paddedWidth cfg m c) (paddedHeight cfg m c)
        (((⌈max (paddedHeight cfg m c) ls.mch⌉ : ℤ) : ℚ))
        { x := ls.x, y := ls.y, mch := ls.mch, page := ls.page, pagesCount := ls.pagesCount }
        with h | h
      · rw [h]
        linarith
      · exact h

theorem loop_draws_bound (cfg : FontCfg) (m : Oracle) (l : List Char) (ls : LoopState)
    (h : ∀ ev ∈ ls.draws, ev.pw ≤ cfg.maxTextureWidth → ev.x + ev.pw ≤ cfg.maxTextureWidth) :
    ∀ ev ∈ (l.foldl (charStep cfg m) ls).draws,
      ev.pw ≤ cfg.maxTextureWidth → ev.x + ev.pw ≤ cfg.maxTextureWidth := by
  refine foldl_preserve
    (P := fun ls2 => ∀ ev ∈ ls2.draws,
      ev.pw ≤ cfg.maxTextureWidth → ev.x + ev.pw ≤ cfg.maxTextureWidth) ?_ l ls h
  intro ls2 c hls ev hev
  rcases charStep_draw_bound cfg m ls2 c ev hev with h2 | h2
  · exact hls ev h2
  · exact h2

/-- C7 amended: the horizontal containment holds — every placed padded box
satisfies `x + paddedWidth <= pageUsableWidth` except when `paddedWidth`
alone exceeds the usable width (the documented oversized-glyph case).  The
vertical half of the claimed containment does not hold in general (see the
counterexample): the bottom boundary is only checked at shelf-wrap time
against the wrapping glyph's own height. -/
theorem C7_x_containment (cfg : FontCfg) (m : Oracle) (st : FontState) (s : List Char)
    (h : ∀ ev ∈ st.draws, ev.pw ≤ cfg.maxTextureWidth → ev.x + ev.pw ≤ cfg.maxTextureWidth) :
    ∀ ev ∈ (ensureCharacters cfg m st s).draws,
      ev.pw ≤ cfg.maxTextureWidth → ev.x + ev.pw ≤ cfg.maxTextureWidth := by
  rw [ensureCharacters]
  by_cases he : (newCharList st s).isEmpty
  · rw [if_pos he]
    exact h
  · rw [if_neg he, ensureBody]
    cases hk : cfg.skipKerning <;> simp only [hk, Bool.false_eq_true, if_false, if_true]
    · exact loop_draws_bound cfg m (newCharList st s) _ h
    · exact loop_draws_bound cfg m (newCharList st s) _ h

unseal Rat.add Rat.sub Rat.mul Rat.inv in
theorem C7_x_containment_witness :
    (∀ ev ∈ stInit.draws, ev.pw ≤ cfg7.maxTextureWidth → ev.x + ev.pw ≤ cfg7.maxTextureWidth) ∧
    (∀ ev ∈ (ensureCharacters cfg7 o7 stInit ['a', 'b', 'c']).draws,
      ev.pw ≤ cfg7.maxTextureWidth → ev.x + ev.pw ≤ cfg7.maxTextureWidth) :=
  ⟨by decide, C7_x_containment cfg7 o7 stInit ['a', 'b', 'c'] (by decide)⟩

unseal Rat.add Rat.sub Rat.mul Rat.inv in
/-- C7: refuted as stated — on a 10 x 10 usable page, the third glyph
(2 wide, 5 tall, so oversized in neither dimension) is placed at `(2, 9)`
on a shelf whose wrap was validated against a 1-tall glyph, and its padded
box reaches `y + height = 14 > 10`: vertical containment fails even though
`paddedWidth` does not exceed the usable width. -/
theorem C7_containment_cex :
    (ensureCharacters cfg7 o7 stInit ['a', 'b', 'c']).draws.get? 2 =
      some { ch := 'c', page := 0, x := 2, y := 9, pw := 2, ph := 5 } ∧
    (9 : ℚ) + 5 > cfg7.maxTextureHeight ∧ (2 : ℚ) ≤ cfg7.maxTextureWidth ∧
    (5 : ℚ) ≤ cfg7.maxTextureHeight := by
  decide

theorem charStep_xadvance (cfg : FontCfg) (m : Oracle) (ls : LoopState) (c : Char) :
    ((charStep cfg m ls c).chars c).map GlyphRecord.xAdvance = some (xAdvanceOf cfg m c) := by
  by_cases hws : isWhitespaceChar c <;> simp [charStep, hws]

theorem mkFontCfg_xadvance_noOverride (o : FontOptions) (m : Oracle) (c : Char)
    (hov : o.overrideSize = false) :
    xAdvanceOf (mkFontCfg o) m c = m.width [c] - o.shadowDistance - o.stroke.getD 0 := by
  rw [xAdvanceOf, mkFontCfg]
  cases ho : o.stroke <;> simp [effectiveStrokeWidth, ho, hov]

/-- C8 amended: the recorded `xAdvance` equals the raw measured advance
width minus the shadow distance minus the *effective* stroke width held by
the font (the configured stroke rescaled by
`baseRenderedFontSize / requestedFontSize` when `overrideSize` is set,
the configured stroke unchanged otherwise); when `overrideSize` is false
this equals the configured values and is independent of the requested
display size. -/
theorem C8_xadvance_effective :
    (∀ (o : FontOptions) (m : Oracle) (ls : LoopState) (c : Char),
      ((charStep (mkFontCfg o) m ls c).chars c).map GlyphRecord.xAdvance =
        some (m.width [c] - o.shadowDistance - effectiveStrokeWidth o)) ∧
    (∀ (o : FontOptions) (m : Oracle) (ls : LoopState) (c : Char), o.overrideSize = false →
      ((charStep (mkFontCfg o) m ls c).chars c).map GlyphRecord.xAdvance =
        some (m.width [c] - o.shadowDistance - o.stroke.getD 0)) ∧
    (∀ (o1 o2 : FontOptions) (m : Oracle) (c : Char),
      o1.overrideSize = false → o2.overrideSize = false → o1.stroke = o2.stroke →
      o1.shadowDistance = o2.shadowDistance →
      xAdvanceOf (mkFontCfg o1) m c = xAdvanceOf (mkFontCfg o2) m c) := by
  refine ⟨?_, ?_, ?_⟩
  · intro o m ls c
    rw [charStep_xadvance]
    rfl
  · intro o m ls c hov
    rw [charStep_xadvance, mkFontCfg_xadvance_noOverride o m c hov]
  · intro o1 o2 m c h1 h2 hst hsh
    rw [mkFontCfg_xadvance_noOverride o1 m c h1, mkFontCfg_xadvance_noOverride o2 m c h2,
      hst, hsh]

theorem C8_xadvance_effective_witness :
    optsC.overrideSize = false ∧
    ((charStep (mkFontCfg optsC) o8 lsInit0 'A').chars 'A').map GlyphRecord.xAdvance =
      some (o8.width ['A'] - optsC.shadowDistance - optsC.stroke.getD 0) :=
  ⟨rfl, C8_xadvance_effective.2.1 optsC o8 lsInit0 'A' rfl⟩

unseal Rat.add Rat.sub Rat.mul Rat.inv in
/-- C8: refuted as stated — with `overrideSize` set, the stroke width
subtracted from `xAdvance` is the constructor-rescaled one, so `xAdvance`
depends on the requested display size: identical styles requested at sizes
20 and 50 yield `xAdvance` 20 and 50 respectively, and neither equals the
value computed from the configured stroke width (60). -/
theorem C8_xadvance_cex :
    ((ensureCharacters (mkFontCfg optsA) o8 stInit ['A']).chars 'A').map GlyphRecord.xAdvance =
      some 20 ∧
    ((ensureCharacters (mkFontCfg optsB) o8 stInit ['A']).chars 'A').map GlyphRecord.xAdvance =
      some 50 ∧
    o8.width ['A'] - optsA.shadowDistance - optsA.stroke.getD 0 = 60 := by
  decide

theorem lookupWidth_keep (m : Oracle) (σ : Char → Option ℚ) (calls : List (List Char))
    (c : Char) {x : Char} {v : ℚ} (hx : σ x = some v) (hv : v ≠ 0) :
    (lookupWidth m σ calls c).2.1 x = some v ∧
    ∀ e ∈ (lookupWidth m σ calls c).2.2, e ∈ calls ∨ e ≠ [x] := by
  have hxc : σ c = none ∨ σ c = some 0 → x ≠ c := by
    rintro (hc | hc) rfl <;> rw [hc] at hx
    · exact Option.noConfusion hx
    · exact hv (Option.some.inj hx).symm
  rw [lookupWidth]
  cases hc : σ c with
  | none =>
    have hne : x ≠ c := hxc (Or.inl hc)
    refine ⟨by simp [hne, hx], ?_⟩
    intro e he
    rw [List.mem_append, List.mem_singleton] at he
    rcases he with he | rfl
    · exact Or.inl he
    · right
      intro h
      rw [List.cons.injEq] at h
      exact hne h.1.symm
  | some w =>
    dsimp only
    by_cases hw : w = 0
    · have hne : x ≠ c := hxc (Or.inr (hw ▸ hc))
      rw [if_pos hw]
      refine ⟨by simp [hne, hx], ?_⟩
      intro e he
      rw [List.mem_append, List.mem_singleton] at he
      rcases he with he | rfl
      · exact Or.inl he
      · right
        intro h
        rw [List.cons.injEq] at h
        exact hne h.1.symm
    · rw [if_neg hw]
      exact ⟨hx, fun e he => Or.inl he⟩

theorem kernPairStep_keep {m : Oracle} {x : Char} {v : ℚ} {calls0 : List (List Char)}
    (first : Char) (ks : KernState) (second : Char)
    (hx : ks.cache x = some v) (hv : v ≠ 0)
    (hcalls : ∀ e ∈ ks.calls, e ∈ calls0 ∨ e ≠ [x]) :
    (kernPairStep m first ks second).cache x = some v ∧
    ∀ e ∈ (kernPairStep m first ks second).calls, e ∈ calls0 ∨ e ≠ [x] := by
  obtain ⟨h1c, h1calls⟩ := lookupWidth_keep m ks.cache ks.calls first hx hv
  obtain ⟨h2c, h2calls⟩ :=
    lookupWidth_keep m (lookupWidth m ks.cache ks.calls first).2.1
      (lookupWidth m ks.cache ks.calls first).2.2 second h1c hv
  refine ⟨h2c, ?_⟩
  intro e he
  rcases h2calls e he with h | h
  · rcases h1calls e h with h3 | h3
    · exact hcalls e h3
    · exact Or.inr h3
  · exact Or.inr h

/-- C5 amended: once a character's width is cached with a *non-zero*
value, `_applyKerning` never calls the width-measurement collaborator for
that single character again.  (A zero cached width is falsy and triggers a
re-measure on every lookup — see the counterexample.) -/
theorem C5_measure_cached_once (m : Oracle) (newChars currentChars : List Char)
    (ks : KernState) (x : Char) (v : ℚ) (hx : ks.cache x = some v) (hv : v ≠ 0) :
    ∀ e ∈ (applyKerning m newChars currentChars ks).calls, e ∈ ks.calls ∨ e ≠ [x] := by
  have main : (applyKerning m newChars currentChars ks).cache x = some v ∧
      ∀ e ∈ (applyKerning m newChars currentChars ks).calls, e ∈ ks.calls ∨ e ≠ [x] := by
    rw [applyKerning]
    refine foldl_preserve
      (P := fun ks2 => ks2.cache x = some v ∧ ∀ e ∈ ks2.calls, e ∈ ks.calls ∨ e ≠ [x])
      ?_ newChars ks ⟨hx, fun e he => Or.inl he⟩
    intro ks2 first h2
    refine foldl_preserve
      (P := fun ks2 => ks2.cache x = some v ∧ ∀ e ∈ ks2.calls, e ∈ ks.calls ∨ e ≠ [x])
      ?_ currentChars ks2 h2
    intro ks3 second h3
    exact kernPairStep_keep first ks3 second h3.1 hv h3.2
  exact main.2

unseal Rat.add Rat.sub Rat.mul Rat.inv in
theorem C5_measure_cached_once_witness :
    ksW.cache 'a' = some 3 ∧ (3 : ℚ) ≠ 0 ∧
    (∀ e ∈ (applyKerning oConst ['b'] ['a', 'b'] ksW).calls, e ∈ ksW.calls ∨ e ≠ ['a']) :=
  ⟨rfl, by decide, C5_measure_cached_once oConst ['b'] ['a', 'b'] ksW 'a' 3 rfl (by decide)⟩

unseal Rat.add Rat.sub Rat.mul Rat.inv in
/-- C5: refuted as stated — a character whose measured width is `0` is
cached, but the cached `0` is falsy (`if (!c1)`, line 295), so the
collaborator is called for it again on every pair iteration: in a single
kerning pass over a fresh font, the single-character width of `x` is
measured (at least) twice. -/
theorem C5_measure_cache_cex :
    oZ.width ['x'] = 0 ∧
    2 ≤ (ensureCharacters cfgKernOn oZ stInit ['x', 'y']).kernCalls.count ['x'] := by
  decide

theorem lookupWidth_val (m : Oracle) (σ : Char → Option ℚ) (calls : List (List Char)) (c : Char) :
    (lookupWidth m σ calls c).1 = effW m σ c := by
  rw [lookupWidth, effW]
  cases hc : σ c with
  | none => rfl
  | some w => by_cases hw : w = 0 <;> simp [hw]

theorem lookupWidth_effW (m : Oracle) (σ : Char → Option ℚ) (calls : List (List Char))
    (c d : Char) : effW m (lookupWidth m σ calls c).2.1 d = effW m σ d := by
  rw [lookupWidth]
  cases hc : σ c with
  | none =>
    by_cases hdc : d = c
    · subst hdc
      simp [effW, hc]
    · simp [effW, hdc]
  | some w =>
    dsimp only
    by_cases hw : w = 0
    · rw [if_pos hw]
      by_cases hdc : d = c
      · subst hdc
        simp [effW, hc, hw]
      · simp [effW, hdc]
    · rw [if_neg hw]

theorem kernPairStep_canon (m : Oracle) (σ0 : Char → Option ℚ)
    (hsym : ∀ a b : Char, m.width [a, b] = m.width [b, a])
    (first : Char) (ks : KernState) (second : Char)
    (h : KernCanon m σ0 ks) : KernCanon m σ0 (kernPairStep m first ks second) := by
  obtain ⟨hc, hw⟩ := h
  have e1 : (lookupWidth m ks.cache ks.calls first).1 = effW m σ0 first := by
    rw [lookupWidth_val]
    exact hc first
  have e1c : ∀ d, effW m (lookupWidth m ks.cache ks.calls first).2.1 d = effW m σ0 d := by
    intro d
    rw [lookupWidth_effW]
    exact hc d
  have e2 : (lookupWidth m (lookupWidth m ks.cache ks.calls first).2.1
      (lookupWidth m ks.cache ks.calls first).2.2 second).1 = effW m σ0 second := by
    rw [lookupWidth_val]
    exact e1c second
  have hval1 : m.width [first, second] -
      ((lookupWidth m ks.cache ks.calls first).1 +
        (lookupWidth m (lookupWidth m ks.cache ks.calls first).2.1
          (lookupWidth m ks.cache ks.calls first).2.2 second).1) =
      kcanon m σ0 first second := by
    rw [e1, e2, kcanon]
  have hval2 : m.width [first, second] -
      ((lookupWidth m ks.cache ks.calls first).1 +
        (lookupWidth m (lookupWidth m ks.cache ks.calls first).2.1
          (lookupWidth m ks.cache ks.calls first).2.2 second).1) =
      kcanon m σ0 second first := by
    rw [e1, e2, kcanon, hsym second first]
    ring
  constructor
  · intro d
    show effW m (lookupWidth m (lookupWidth m ks.cache ks.calls first).2.1
      (lookupWidth m ks.cache ks.calls first).2.2 second).2.1 d = effW m σ0 d
    rw [lookupWidth_effW]
    exact e1c d
  · intro w hwmem
    rw [kernPairStep] at hwmem
    simp only at hwmem
    split_ifs at hwmem with h1
    · rw [List.mem_append, List.mem_singleton] at hwmem
      rcases hwmem with hwmem | rfl
      · rw [List.mem_append, List.mem_singleton] at hwmem
        rcases hwmem with hwmem | rfl
        · exact hw w hwmem
        · exact hval1
      · exact hval2
    · exact hw w hwmem

theorem hasBadWrite_eq_false_of_fun (F : Char → Char → ℚ) :
    ∀ ws : List (Char × Char × ℚ), (∀ w ∈ ws, w.2.2 = F w.1 w.2.1) →
      hasBadWrite ws = false := by
  intro ws
  induction ws with
  | nil => intro _; rfl
  | cons w t ih =>
    intro h
    rw [hasBadWrite, Bool.or_eq_false_iff]
    constructor
    · rw [List.any_eq_false]
      intro w2 hw2
      rw [badPair]
      by_cases k1 : w2.1 = w.1
      · by_cases k2 : w2.2.1 = w.2.1
        · have hv : w2.2.2 = w.2.2 := by
            rw [h w2 (List.mem_cons_of_mem w hw2), h w (List.mem_cons_self w t), k1, k2]
          simp [hv]
        · simp [k2]
      · simp [k1]
    · exact ih (fun w2 hw2 => h w2 (List.mem_cons_of_mem w hw2))

/-- C4 amended: when the pair measurement is direction-symmetric
(`width (x + y) = width (y + x)`), no kerning entry written with a
non-zero amount is ever overwritten with a different amount — within a
single `_applyKerning` invocation and across any sequence of invocations.
Without that symmetry the property fails, because the source measures the
concatenation `first + second` for *both* directions (lines 301 and 310),
so a pair of characters in the same new batch writes `chars[x].kerning[y]`
once from `width(x + y)` and once from `width(y + x)` — see the
counterexample. -/
theorem C4_kerning_no_overwrite_symmetric (m : Oracle)
    (hsym : ∀ a b : Char, m.width [a, b] = m.width [b, a])
    (bs : List (List Char × List Char)) (chars0 : Char → Option GlyphRecord)
    (σ0 : Char → Option ℚ) :
    hasBadWrite (runKernBatches m bs
      { chars := chars0, cache := σ0, writes := [], calls := [] }).writes = false := by
  have hcanon : KernCanon m σ0 (runKernBatches m bs
      { chars := chars0, cache := σ0, writes := [], calls := [] }) := by
    rw [runKernBatches]
    refine foldl_preserve (P := KernCanon m σ0) ?_ bs _ ⟨fun d => rfl, by simp [KernCanon]⟩
    intro ks b hks
    show KernCanon m σ0 (applyKerning m b.1 b.2 ks)
    rw [applyKerning]
    refine foldl_preserve (P := KernCanon m σ0) ?_ b.1 ks hks
    intro ks2 first h2
    refine foldl_preserve (P := KernCanon m σ0) ?_ b.2 ks2 h2
    intro ks3 second h3
    exact kernPairStep_canon m σ0 hsym first ks3 second h3
  exact hasBadWrite_eq_false_of_fun (kcanon m σ0) _ hcanon.2

theorem C4_kerning_no_overwrite_symmetric_witness :
    hasBadWrite (runKernBatches oConst [(['a'], ['a', 'b'])]
      { chars := fun _ => none, cache := fun _ => none
        writes := [], calls := [] }).writes = false :=
  C4_kerning_no_overwrite_symmetric oConst (fun _ _ => rfl) [(['a'], ['a', 'b'])]
    (fun _ => none) (fun _ => none)

unseal Rat.add Rat.sub Rat.mul Rat.inv in
/-- C4: refuted as stated — with direction-asymmetric pair measurement
(`width "ab" = 10`, `width "ba" = 20`, single widths 3 and 4), a single
`ensureCharacters("ab")` batch writes `chars['a'].kerning['b'] = 3` (from
the `(first = 'a', second = 'b')` iteration) and later overwrites it with
`13` (from the `(first = 'b', second = 'a')` iteration, whose second
branch also measures `first + second`): a non-zero entry is overwritten
with a different value within one invocation. -/
theorem C4_kerning_overwrite_cex :
    (ensureCharacters cfgKernOn oK stInit ['a', 'b']).kernWrites =
      [('a', 'b', 3), ('b', 'a', 3), ('b', 'a', 13), ('a', 'b', 13)] ∧
    hasBadWrite (ensureCharacters cfgKernOn oK stInit ['a', 'b']).kernWrites = true := by
  decide

theorem ceil_natCast_q (n : ℕ) : ((⌈((n : ℕ) : ℚ)⌉ : ℤ) : ℚ) = (n : ℚ) := by
  rw [Int.ceil_natCast]
  exact Int.cast_natCast n

theorem advancePose_noWrap (cfg : FontCfg) (pw ph mch1 : ℚ) (p : Pose)
    (h : ¬(p.x + pw > cfg.maxTextureWidth)) :
    advancePose cfg pw ph mch1 p =
      { x := p.x, y := p.y, mch := mch1, page := p.page, pagesCount := p.pagesCount } := by
  rw [advancePose, if_neg h]

theorem advancePose_wrap (cfg : FontCfg) (pw ph mch1 : ℚ) (p : Pose)
    (h1 : p.x + pw > cfg.maxTextureWidth)
    (h2 : ¬(p.y + mch1 + ph > cfg.maxTextureHeight)) :
    advancePose cfg pw ph mch1 p =
      { x := 0, y := p.y + mch1, mch := ph, page := p.page, pagesCount := p.pagesCount } := by
  rw [advancePose, if_pos h1, if_neg h2]

theorem advancePose_overflow (cfg : FontCfg) (pw ph mch1 : ℚ) (p : Pose)
    (h1 : p.x + pw > cfg.maxTextureWidth)
    (h2 : p.y + mch1 + ph > cfg.maxTextureHeight) :
    advancePose cfg pw ph mch1 p =
      { x := 0, y := 0, mch := ph, page := p.page + 1
        pagesCount := max p.pagesCount (p.page + 2).toNat } := by
  rw [advancePose, if_pos h1, if_pos h2]

theorem charStep_visible_fields (cfg : FontCfg) (m : Oracle) (ls : LoopState) (c : Char)
    (hws : isWhitespaceChar c = false) :
    (charStep cfg m ls c).x = (poseOf cfg m ls c).x + ((⌈paddedWidth cfg m c⌉ : ℤ) : ℚ) ∧
    (charStep cfg m ls c).y = (poseOf cfg m ls c).y ∧
    (charStep cfg m ls c).mch = (poseOf cfg m ls c).mch ∧
    (charStep cfg m ls c).page = (poseOf cfg m ls c).page ∧
    (charStep cfg m ls c).pagesCount = (poseOf cfg m ls c).pagesCount ∧
    (charStep cfg m ls c).draws = ls.draws ++
      [{ ch := c, page := (poseOf cfg m ls c).page, x := (poseOf cfg m ls c).x
         y := (poseOf cfg m ls c).y, pw := paddedWidth cfg m c
         ph := paddedHeight cfg m c }] := by
  rw [charStep]
  simp only [hws, Bool.false_eq_true, if_false]
  exact ⟨rfl, rfl, rfl, rfl, rfl, rfl⟩

theorem charStep_uniform_first (cfg : FontCfg) (m : Oracle) (pw ph N M : ℕ)
    (hs : OverflowScenario cfg pw ph N M) (c : Char) (hc : unifChar cfg m pw ph c) :
    shelfInv pw ph 0 1 (charStep cfg m lsInit0 c) := by
  obtain ⟨hws, hpwc, hphc⟩ := hc
  obtain ⟨fx, fy, fmch, fpage, fpages, _⟩ := charStep_visible_fields cfg m lsInit0 c hws
  have hceil : ((⌈max (paddedHeight cfg m c) lsInit0.mch⌉ : ℤ) : ℚ) = (ph : ℚ) := by
    have hm : max (paddedHeight cfg m c) lsInit0.mch = ((ph : ℕ) : ℚ) := by
      rw [hphc]
      exact max_eq_left (Nat.cast_nonneg ph)
    rw [hm, ceil_natCast_q]
  have hcond : ¬(lsInit0.x + paddedWidth cfg m c > cfg.maxTextureWidth) := by
    rw [hpwc]
    push_neg
    have h1 : (1 : ℚ) ≤ (N : ℚ) := by exact_mod_cast hs.hN
    have h2 : (1 : ℚ) * (pw : ℚ) ≤ (N : ℚ) * (pw : ℚ) :=
      mul_le_mul_of_nonneg_right h1 (by positivity)
    have h0 : lsInit0.x = 0 := rfl
    rw [h0]
    linarith [hs.hWlo]
  have hpose : poseOf cfg m lsInit0 c =
      { x := lsInit0.x, y := lsInit0.y
        mch := ((⌈max (paddedHeight cfg m c) lsInit0.mch⌉ : ℤ) : ℚ)
        page := lsInit0.page, pagesCount := lsInit0.pagesCount } := by
    rw [poseOf]
    exact advancePose_noWrap cfg _ _ _ _ hcond
  refine ⟨?_, ?_, ?_, ?_, ?_⟩
  · rw [fx, hpose, hpwc, ceil_natCast_q]
    show (0 : ℚ) + (pw : ℚ) = ((1 : ℕ) : ℚ) * (pw : ℚ)
    push_cast
    ring
  · rw [fy, hpose]
    show (0 : ℚ) = ((0 : ℕ) : ℚ) * ((ph : ℕ) : ℚ)
    push_cast
    ring
  · rw [fmch, hpose]
    exact hceil
  · rw [fpage, hpose]
    rfl
  · rw [fpages, hpose]
    rfl

theorem charStep_uniform_interior (cfg : FontCfg) (m : Oracle) (pw ph N M : ℕ)
    (hs : OverflowScenario cfg pw ph N M) (q r : ℕ) (_hr1 : 1 ≤ r) (hrN : r + 1 ≤ N)
    (ls : LoopState) (c : Char) (hc : unifChar cfg m pw ph c)
    (hinv : shelfInv pw ph q r ls) :
    shelfInv pw ph q (r + 1) (charStep cfg m ls c) := by
  obtain ⟨hws, hpwc, hphc⟩ := hc
  obtain ⟨hx, hy, hmch, hpage, hpages⟩ := hinv
  obtain ⟨fx, fy, fmch, fpage, fpages, _⟩ := charStep_visible_fields cfg m ls c hws
  have hceil : ((⌈max (paddedHeight cfg m c) ls.mch⌉ : ℤ) : ℚ) = (ph : ℚ) := by
    rw [hphc, hmch, max_self, ceil_natCast_q]
  have hcond : ¬(ls.x + paddedWidth cfg m c > cfg.maxTextureWidth) := by
    rw [hx, hpwc]
    push_neg
    have h1 : ((r : ℚ) + 1) ≤ (N : ℚ) := by exact_mod_cast hrN
    have h2 : ((r : ℚ) + 1) * (pw : ℚ) ≤ (N : ℚ) * (pw : ℚ) :=
      mul_le_mul_of_nonneg_right h1 (by positivity)
    linarith [hs.hWlo]
  have hpose : poseOf cfg m ls c =
      { x := ls.x, y := ls.y
        mch := ((⌈max (paddedHeight cfg m c) ls.mch⌉ : ℤ) : ℚ)
        page := ls.page, pagesCount := ls.pagesCount } := by
    rw [poseOf]
    exact advancePose_noWrap cfg _ _ _ _ hcond
  refine ⟨?_, ?_, ?_, ?_, ?_⟩
  · rw [fx, hpose, hpwc, ceil_natCast_q]
    show ls.x + (pw : ℚ) = ((r + 1 : ℕ) : ℚ) * (pw : ℚ)
    rw [hx]
    push_cast
    ring
  · rw [fy, hpose]
    exact hy
  · rw [fmch, hpose]
    exact hceil
  · rw [fpage, hpose]
    exact hpage
  · rw [fpages, hpose]
    exact hpages

theorem charStep_uniform_wrap (cfg : FontCfg) (m : Oracle) (pw ph N M : ℕ)
    (hs : OverflowScenario cfg pw ph N M) (q : ℕ) (hq2 : q + 2 ≤ M)
    (ls : LoopState) (c : Char) (hc : unifChar cfg m pw ph c)
    (hinv : shelfInv pw ph q N ls) :
    shelfInv pw ph (q + 1) 1 (charStep cfg m ls c) := by
  obtain ⟨hws, hpwc, hphc⟩ := hc
  obtain ⟨hx, hy, hmch, hpage, hpages⟩ := hinv
  obtain ⟨fx, fy, fmch, fpage, fpages, _⟩ := charStep_visible_fields cfg m ls c hws
  have hceil : ((⌈max (paddedHeight cfg m c) ls.mch⌉ : ℤ) : ℚ) = (ph : ℚ) := by
    rw [hphc, hmch, max_self, ceil_natCast_q]
  have hcond1 : ls.x + paddedWidth cfg m c > cfg.maxTextureWidth := by
    rw [hx, hpwc]
    exact hs.hWhi
  have hcond2 : ¬(ls.y + ((⌈max (paddedHeight cfg m c) ls.mch⌉ : ℤ) : ℚ) +
      paddedHeight cfg m c > cfg.maxTextureHeight) := by
    rw [hy, hceil, hphc]
    push_neg
    have h1 : ((q : ℚ) + 2) ≤ (M : ℚ) := by exact_mod_cast hq2
    have h2 : ((q : ℚ) + 2) * (ph : ℚ) ≤ (M : ℚ) * (ph : ℚ) :=
      mul_le_mul_of_nonneg_right h1 (by positivity)
    linarith [hs.hHlo]
  have hpose : poseOf cfg m ls c =
      { x := 0, y := ls.y + ((⌈max (paddedHeight cfg m c) ls.mch⌉ : ℤ) : ℚ)
        mch := paddedHeight cfg m c
        page := ls.page, pagesCount := ls.pagesCount } := by
    rw [poseOf]
    exact advancePose_wrap cfg _ _ _ _ hcond1 hcond2
  refine ⟨?_, ?_, ?_, ?_, ?_⟩
  · rw [fx, hpose, hpwc, ceil_natCast_q]
    show (0 : ℚ) + (pw : ℚ) = ((1 : ℕ) : ℚ) * (pw : ℚ)
    push_cast
    ring
  · rw [fy, hpose]
    show ls.y + ((⌈max (paddedHeight cfg m c) ls.mch⌉ : ℤ) : ℚ) = ((q + 1 : ℕ) : ℚ) * (ph : ℚ)
    rw [hy, hceil]
    push_cast
    ring
  · rw [fmch, hpose]
    exact hphc
  · rw [fpage, hpose]
    exact hpage
  · rw [fpages, hpose]
    exact hpages

theorem charStep_uniform_overflow (cfg : FontCfg) (m : Oracle) (pw ph N M : ℕ)
    (hs : OverflowScenario cfg pw ph N M) (q : ℕ) (hqM : q + 1 = M)
    (ls : LoopState) (c : Char) (hc : unifChar cfg m pw ph c)
    (hinv : shelfInv pw ph q N ls) :
    (charStep cfg m ls c).pagesCount = 2 ∧
    (charStep cfg m ls c).draws = ls.draws ++
      [{ ch := c, page := 1, x := 0, y := 0, pw := paddedWidth cfg m c
         ph := paddedHeight cfg m c }] := by
  obtain ⟨hws, hpwc, hphc⟩ := hc
  obtain ⟨hx, hy, hmch, hpage, hpages⟩ := hinv
  obtain ⟨fx, fy, fmch, fpage, fpages, fdraws⟩ := charStep_visible_fields cfg m ls c hws
  have hceil : ((⌈max (paddedHeight cfg m c) ls.mch⌉ : ℤ) : ℚ) = (ph : ℚ) := by
    rw [hphc, hmch, max_self, ceil_natCast_q]
  have hcond1 : ls.x + paddedWidth cfg m c > cfg.maxTextureWidth := by
    rw [hx, hpwc]
    exact hs.hWhi
  have hcond2 : ls.y + ((⌈max (paddedHeight cfg m c) ls.mch⌉ : ℤ) : ℚ) +
      paddedHeight cfg m c > cfg.maxTextureHeight := by
    rw [hy, hceil, hphc]
    have h1 : (M : ℚ) * (ph : ℚ) = (q : ℚ) * (ph : ℚ) + (ph : ℚ) := by
      have : ((q : ℚ) + 1) = (M : ℚ) := by exact_mod_cast hqM
      rw [← this]
      ring
    have h2 := hs.hHhi
    rw [h1] at h2
    linarith
  have hpose : poseOf cfg m ls c =
      { x := 0, y := 0, mch := paddedHeight cfg m c, page := ls.page + 1
        pagesCount := max ls.pagesCount (ls.page + 2).toNat } := by
    rw [poseOf]
    exact advancePose_overflow cfg _ _ _ _ hcond1 hcond2
  constructor
  · rw [fpages, hpose]
    show max ls.pagesCount (ls.page + 2).toNat = 2
    rw [hpage, hpages]
    rfl
  · rw [fdraws, hpose]
    rw [hpage]
    rfl

theorem foldl_uniform (cfg : FontCfg) (m : Oracle) (pw ph N M : ℕ)
    (hs : OverflowScenario cfg pw ph N M) :
    ∀ (l : List Char) (q r : ℕ) (ls : LoopState),
      (∀ c ∈ l, unifChar cfg m pw ph c) → shelfInv pw ph q r ls → 1 ≤ r → r ≤ N →
      q * N + r + l.length ≤ N * M →
      ∃ q2 r2, shelfInv pw ph q2 r2 (l.foldl (charStep cfg m) ls) ∧ 1 ≤ r2 ∧ r2 ≤ N ∧
        q2 * N + r2 = q * N + r + l.length := by
  intro l
  induction l with
  | nil =>
    intro q r ls _ hinv h1 h2 _
    exact ⟨q, r, hinv, h1, h2, by simp⟩
  | cons c t ih =>
    intro q r ls hunif hinv h1 hrN hbudget
    rw [List.length_cons] at hbudget
    rw [List.foldl_cons]
    rcases Nat.lt_or_ge r N with hr | hr
    · have hstep := charStep_uniform_interior cfg m pw ph N M hs q r h1 (by omega) ls c
        (hunif c (List.mem_cons_self c t)) hinv
      obtain ⟨q2, r2, hinv2, hr21, hr22, heq⟩ :=
        ih q (r + 1) _ (fun d hd => hunif d (List.mem_cons_of_mem c hd)) hstep
          (by omega) (by omega) (by linarith)
      exact ⟨q2, r2, hinv2, hr21, hr22, by rw [heq, List.length_cons]; linarith⟩
    · have hrN' : N = r := (le_antisymm hrN hr).symm
      subst hrN'
      have hq2 : q + 2 ≤ M := by
        have h1' : (q + 1) * N < N * M := by
          rw [Nat.succ_mul]
          linarith
        have h2' : (q + 1) * N < M * N := by
          rw [Nat.mul_comm M N]
          exact h1'
        have h3' : q + 1 < M := lt_of_mul_lt_mul_right h2' (Nat.zero_le N)
        omega
      have hstep := charStep_uniform_wrap cfg m pw ph N M hs q hq2 ls c
        (hunif c (List.mem_cons_self c t)) hinv
      obtain ⟨q2, r2, hinv2, hr21, hr22, heq⟩ :=
        ih (q + 1) 1 _ (fun d hd => hunif d (List.mem_cons_of_mem c hd)) hstep
          (le_refl 1) hs.hN (by rw [Nat.succ_mul]; linarith)
      refine ⟨q2, r2, hinv2, hr21, hr22, ?_⟩
      rw [heq, List.length_cons, Nat.succ_mul]
      linarith

/-- C6: on a page holding exactly `N` uniform glyphs per shelf and `M`
shelves, a single `ensureCharacters` call on a fresh font requesting
`N * M + 1` distinct visible glyphs of that padded size produces exactly
2 pages, with the overflow glyph placed at `(0, 0)` on the second page. -/
theorem C6_overflow_two_pages (cfg : FontCfg) (m : Oracle) (pw ph N M : ℕ) (l : List Char)
    (hs : OverflowScenario cfg pw ph N M)
    (hunif : ∀ c ∈ l, unifChar cfg m pw ph c)
    (hlen : l.length = N * M + 1) (hnd : l.Nodup) :
    (ensureCharacters cfg m stInit l).pagesCount = 2 ∧
    ((ensureCharacters cfg m stInit l).draws.map (fun ev => (ev.page, ev.x, ev.y))).getLast? =
      some (1, 0, 0) := by
  have hncl : newCharList stInit l = l := by
    rw [newCharList, resolveCharacters]
    have hfilter : l.filter (fun c => decide (c ∉ stInit.currentChars)) = l := by
      apply List.filter_eq_self.mpr
      intro a _
      simp [stInit]
    rw [hfilter, dedupFirst_eq_self hnd]
  have hne : l ≠ [] := by
    intro h
    rw [h] at hlen
    simp at hlen
  have hensure : ensureCharacters cfg m stInit l = ensureBody cfg m stInit l := by
    rw [ensureCharacters, if_neg]
    rw [hncl]
    simp [List.isEmpty_iff, hne]
  have hbody : (ensureBody cfg m stInit l).pagesCount =
        (l.foldl (charStep cfg m) lsInit0).pagesCount ∧
      (ensureBody cfg m stInit l).draws = (l.foldl (charStep cfg m) lsInit0).draws := by
    rw [ensureBody, hncl]
    cases hk : cfg.skipKerning <;>
      simp only [hk, Bool.false_eq_true, if_false, if_true] <;> exact ⟨rfl, rfl⟩
  obtain ⟨c0, t, rfl⟩ := List.exists_cons_of_ne_nil hne
  have ht : t.length = N * M := by
    rw [List.length_cons] at hlen
    exact Nat.succ_injective hlen
  have htne : t ≠ [] := by
    have hpos : 0 < t.length := by
      rw [ht]
      exact Nat.mul_pos hs.hN hs.hM
    exact List.ne_nil_of_length_pos hpos
  have hsplit : t.dropLast ++ [t.getLast htne] = t := List.dropLast_append_getLast htne
  have hfold1 : shelfInv pw ph 0 1 (charStep cfg m lsInit0 c0) :=
    charStep_uniform_first cfg m pw ph N M hs c0 (hunif c0 (List.mem_cons_self c0 t))
  have hbud : 0 * N + 1 + t.dropLast.length ≤ N * M := by
    rw [List.length_dropLast, ht]
    have hK : 0 < N * M := Nat.mul_pos hs.hN hs.hM
    generalize N * M = K at hK ⊢
    omega
  obtain ⟨q2, r2, hinv2, hr21, hr22, heq⟩ :=
    foldl_uniform cfg m pw ph N M hs t.dropLast 0 1 (charStep cfg m lsInit0 c0)
      (fun d hd => hunif d (List.mem_cons_of_mem c0 (List.dropLast_subset t hd)))
      hfold1 (le_refl 1) hs.hN hbud
  have heq2 : q2 * N + r2 = N * M := by
    rw [heq, List.length_dropLast, ht]
    have hK : 0 < N * M := Nat.mul_pos hs.hN hs.hM
    generalize N * M = K at hK ⊢
    omega
  have hq2M : q2 + 1 = M := by
    have hlt : q2 * N < N * M := by linarith
    have hlt2 : q2 * N < M * N := by
      rw [Nat.mul_comm M N]
      exact hlt
    have hq2ltM : q2 < M := lt_of_mul_lt_mul_right hlt2 (Nat.zero_le N)
    have hge : N * M ≤ (q2 + 1) * N := by
      rw [Nat.succ_mul]
      linarith
    have hge2 : M * N ≤ (q2 + 1) * N := by
      rw [Nat.mul_comm M N]
      exact hge
    have hMle : M ≤ q2 + 1 := Nat.le_of_mul_le_mul_right hge2 hs.hN
    omega
  have hr2N : N = r2 := by
    have hNM : N * M = q2 * N + N := by
      rw [← hq2M, Nat.mul_succ, Nat.mul_comm N q2]
    rw [hNM] at heq2
    exact (Nat.add_left_cancel heq2).symm
  subst hr2N
  have hlast := charStep_uniform_overflow cfg m pw ph N M hs q2 hq2M
    (t.dropLast.foldl (charStep cfg m) (charStep cfg m lsInit0 c0)) (t.getLast htne)
    (hunif (t.getLast htne) (List.mem_cons_of_mem c0 (List.getLast_mem htne))) hinv2
  have hfold : (c0 :: t).foldl (charStep cfg m) lsInit0 =
      charStep cfg m (t.dropLast.foldl (charStep cfg m) (charStep cfg m lsInit0 c0))
        (t.getLast htne) := by
    rw [List.foldl_cons]
    conv_lhs => rw [← hsplit]
    rw [List.foldl_append]
    rfl
  constructor
  · rw [hensure, hbody.1, hfold]
    exact hlast.1
  · rw [hensure, hbody.2, hfold, hlast.2]
    simp

unseal Rat.add Rat.sub Rat.mul Rat.inv in
theorem C6_overflow_two_pages_witness :
    (ensureCharacters cfg6 o6 stInit ['a', 'b', 'c']).pagesCount = 2 ∧
    ((ensureCharacters cfg6 o6 stInit ['a', 'b', 'c']).draws.map
      (fun ev => (ev.page, ev.x, ev.y))).getLast? = some (1, 0, 0) :=
  C6_overflow_two_pages cfg6 o6 2 3 2 1 ['a', 'b', 'c']
    ⟨by decide, by decide, by decide, by decide, by decide, by decide, by decide, by decide⟩
    (by simp only [unifChar]; decide) (by decide) (by decide)

end PixiDyn
